import Mathlib

/-!
# Verification of the OOXML document mutation core (TheScrew)

Shallow embedding of the word-processing operation scripts
(`word_ops.py`, `word_cli.py`) of the repository, together with
spec-modelled definitions for the parts of the OOXML shim that the
scripts call but whose sources are not available (`document.py`,
`unpack.py`, `pack.py`, `validation/docx.py`).

XML parts are modelled as finite ordered trees (`XNode`); DOM lookups
(`getElementsByTagName`) are preorder-traversal filters, matching
document order; JSON result dictionaries are modelled as ordered
association lists (`JObj`); Python exceptions are modelled with
`Except`.
-/

namespace TheScrew

/-- An XML DOM node: an element with a tag, an ordered attribute list and
an ordered child list, or a text node.  Mirrors the `xml.dom.minidom`
trees the scripts operate on. -/
inductive XNode where
  | elem (tag : String) (attrs : List (String × String)) (children : List XNode)
  | text (s : List Char)

mutual

def XNode.decEq : (a b : XNode) → Decidable (a = b)
  | .text s, .text t =>
      match inferInstanceAs (Decidable (s = t)) with
      | isTrue h => isTrue (by rw [h])
      | isFalse h => isFalse (by intro he; injection he with e1; exact h e1)
  | .text _, .elem _ _ _ => isFalse (fun he => XNode.noConfusion he)
  | .elem _ _ _, .text _ => isFalse (fun he => XNode.noConfusion he)
  | .elem t1 a1 c1, .elem t2 a2 c2 =>
      match inferInstanceAs (Decidable (t1 = t2)), inferInstanceAs (Decidable (a1 = a2)),
          XNode.decEqList c1 c2 with
      | isTrue h1, isTrue h2, isTrue h3 => isTrue (by rw [h1, h2, h3])
      | isFalse h1, _, _ => isFalse (by intro he; injection he with e1 e2 e3; exact h1 e1)
      | _, isFalse h2, _ => isFalse (by intro he; injection he with e1 e2 e3; exact h2 e2)
      | _, _, isFalse h3 => isFalse (by intro he; injection he with e1 e2 e3; exact h3 e3)

def XNode.decEqList : (a b : List XNode) → Decidable (a = b)
  | [], [] => isTrue rfl
  | [], _ :: _ => isFalse (fun he => List.noConfusion he)
  | _ :: _, [] => isFalse (fun he => List.noConfusion he)
  | x :: xs, y :: ys =>
      match XNode.decEq x y, XNode.decEqList xs ys with
      | isTrue h1, isTrue h2 => isTrue (by rw [h1, h2])
      | isFalse h1, _ => isFalse (by intro he; injection he with e1 e2; exact h1 e1)
      | _, isFalse h2 => isFalse (by intro he; injection he with e1 e2; exact h2 e2)

end

instance : DecidableEq XNode := XNode.decEq

mutual

/-- Preorder (document-order) traversal of a node: the node itself
followed by the preorder traversals of its children. -/
def XNode.preorder : XNode → List XNode
  | .text s => [.text s]
  | .elem t a cs => .elem t a cs :: preorderList cs

/-- Preorder traversal of a forest, left to right. -/
def preorderList : List XNode → List XNode
  | [] => []
  | n :: ns => n.preorder ++ preorderList ns

end

/-- Whether a node is an element with the given tag. -/
def isTag (tag : String) : XNode → Bool
  | .elem t _ _ => t = tag
  | .text _ => false

/-- `document.getElementsByTagName(tag)` on a minidom Document whose
root element is `root`: all elements with that tag, in document order
(preorder), the root element included. -/
def docGetElementsByTagName (tag : String) (root : XNode) : List XNode :=
  root.preorder.filter (isTag tag)

/-- The strict descendants of a node (preorder of its children). -/
def elemDescendants : XNode → List XNode
  | .text _ => []
  | .elem _ _ cs => preorderList cs

/-- `element.getElementsByTagName(tag)`: descendant elements with that
tag in document order, the element itself excluded. -/
def getElementsByTagName (tag : String) (n : XNode) : List XNode :=
  (elemDescendants n).filter (isTag tag)

/-- The error taxonomy of the spec (§7). -/
inductive DocxError where
  | archiveCorrupt
  | missingContentTypes
  | partNotFound
  | malformedXml
  | invalidRange
  | locationNotFound
  | ioFailure
deriving DecidableEq

/-- The JSON result of an editing operation of `word_ops.py`
(`success` plus the operation-specific payload / `error` fields). -/
structure OpResult where
  success : Bool
  error : Option String := none
  message : Option String := none
  location : Option Int := none
  text : Option String := none
  author : Option String := none
deriving DecidableEq

/-- A structured edit requested on the in-memory document before it is
saved: the arguments `word_ops.py` passes to the `Document` methods. -/
inductive Edit where
  | comment (start end_ : XNode) (text author : String)
  | insertion (node : XNode) (text : String)
  | deletion (node : XNode)
deriving DecidableEq

/-- The observable outcome of one editing invocation of `word_ops.py`:
the JSON result, the edits handed to the `Document` layer, whether
`doc.save()` and `pack_document` ran, and the archive file at
`docx_path` afterwards (`A` abstracts the archive bytes). -/
structure Outcome (A : Type) where
  result : OpResult
  edits : List Edit
  saved : Bool
  packed : Bool
  archive : A

/-- The body part together with the result of the line-number-based
`get_node(tag="w:p", line_number=location)` lookup, whose implementation
lives in the sibling `document.py`; `lineHit` abstracts its return
value (a node or `None`). -/
structure DocState where
  body : XNode
  lineHit : Option XNode
deriving DecidableEq

/-- The document-order list of `w:p` elements of the body part
(`doc_xml.dom.getElementsByTagName("w:p")`). -/
def DocState.paragraphs (d : DocState) : List XNode :=
  docGetElementsByTagName "w:p" d.body

/-- The paragraph-location logic of `word_ops.py`: take the node found
by line-based lookup if any; otherwise, if `0 <= location <
len(paragraphs)`, take `paragraphs[location]`; otherwise `None`. -/
def locateParagraph (lineHit : Option XNode) (ps : List XNode) (location : Int) : Option XNode :=
  match lineHit with
  | some n => some n
  | none =>
      if 0 ≤ location ∧ location < (ps.length : Int) then ps[location.toNat]?
      else none

/-- `word_ops.add_comment`, from unpacked state to outcome: locate the
paragraph; on failure return `success: False` with an error and touch
nothing; on success request `doc.add_comment(start=node, end=node,
text=text)`, save, pack (`packedResult` abstracts the archive bytes the
pack writes). -/
def add_comment {A : Type} (original packedResult : A) (st : DocState)
    (location : Int) (text author : String) : Outcome A :=
  match locateParagraph st.lineHit st.paragraphs location with
  | none =>
      { result := { success := false,
                    error := some ("Could not find paragraph at location " ++ toString location) },
        edits := [], saved := false, packed := false, archive := original }
  | some node =>
      { result := { success := true,
                    message := some ("Comment added at location " ++ toString location),
                    location := some location, text := some text, author := some author },
        edits := [.comment node node text author],
        saved := true, packed := true, archive := packedResult }

/-- `word_ops.suggest_insertion`, same control flow with a
`suggest_insertion(node, text)` edit. -/
def suggest_insertion {A : Type} (original packedResult : A) (st : DocState)
    (location : Int) (text : String) : Outcome A :=
  match locateParagraph st.lineHit st.paragraphs location with
  | none =>
      { result := { success := false,
                    error := some ("Could not find paragraph at location " ++ toString location) },
        edits := [], saved := false, packed := false, archive := original }
  | some node =>
      { result := { success := true,
                    message := some ("Insertion suggested at location " ++ toString location),
                    location := some location, text := some text },
        edits := [.insertion node text],
        saved := true, packed := true, archive := packedResult }

/-- `word_ops.suggest_deletion`, same control flow with a
`suggest_deletion(node)` edit. -/
def suggest_deletion {A : Type} (original packedResult : A) (st : DocState)
    (location : Int) : Outcome A :=
  match locateParagraph st.lineHit st.paragraphs location with
  | none =>
      { result := { success := false,
                    error := some ("Could not find paragraph at location " ++ toString location) },
        edits := [], saved := false, packed := false, archive := original }
  | some node =>
      { result := { success := true,
                    message := some ("Deletion suggested at location " ++ toString location),
                    location := some location },
        edits := [.deletion node],
        saved := true, packed := true, archive := packedResult }

/-- C1: for each of `add_comment`, `suggest_insertion` and
`suggest_deletion`, whenever no target paragraph can be located the
operation returns `success = false` with an error string, performs no
edit, never invokes save or pack, and leaves the archive at `docx_path`
byte-for-byte unchanged. -/
theorem editing_ops_fail_atomically {A : Type} (original packedResult : A)
    (st : DocState) (location : Int) (text author : String)
    (h : locateParagraph st.lineHit st.paragraphs location = none) :
    (let o := add_comment original packedResult st location text author
     o.result.success = false ∧ (∃ e, o.result.error = some e) ∧
       o.edits = [] ∧ o.saved = false ∧ o.packed = false ∧ o.archive = original) ∧
    (let o := suggest_insertion original packedResult st location text
     o.result.success = false ∧ (∃ e, o.result.error = some e) ∧
       o.edits = [] ∧ o.saved = false ∧ o.packed = false ∧ o.archive = original) ∧
    (let o := suggest_deletion original packedResult st location
     o.result.success = false ∧ (∃ e, o.result.error = some e) ∧
       o.edits = [] ∧ o.saved = false ∧ o.packed = false ∧ o.archive = original) := by
  refine ⟨?_, ?_, ?_⟩
  · simp [add_comment, h]
  · simp [suggest_insertion, h]
  · simp [suggest_deletion, h]

/-- Witness for C1: a body with no paragraphs and location 0. -/
theorem editing_ops_fail_atomically_witness :
    locateParagraph (DocState.mk (.elem "w:document" [] []) none).lineHit
        (DocState.mk (.elem "w:document" [] []) none).paragraphs 0 = none ∧
    (add_comment (0 : Nat) 1 (DocState.mk (.elem "w:document" [] []) none) 0 "t" "a").archive = 0 := by
  refine ⟨by decide, ?_⟩
  exact ((editing_ops_fail_atomically (0 : Nat) 1
    (DocState.mk (.elem "w:document" [] []) none) 0 "t" "a" (by decide)).1.2.2.2.2.2)

/-- C5: when the line-based lookup yields no node, the location is read
as a zero-based index into the document-order sequence of `w:p`
elements: every in-range index targets exactly the index-th paragraph,
every out-of-range location (negative, `count`, or beyond) yields a
not-found signal rather than an escaping exception, and the paragraph
sequence is the document-order (preorder) subsequence of exactly the
`w:p`-tagged elements — no gaps, no repeats. -/
theorem findByTagAndIndex_fallback (body : XNode) :
    (∀ i : Nat, ∀ h : i < (docGetElementsByTagName "w:p" body).length,
        locateParagraph none (docGetElementsByTagName "w:p" body) (i : Int) =
          some (docGetElementsByTagName "w:p" body)[i]) ∧
    (∀ location : Int,
        ¬ (0 ≤ location ∧ location < ((docGetElementsByTagName "w:p" body).length : Int)) →
        locateParagraph none (docGetElementsByTagName "w:p" body) location = none) ∧
    (docGetElementsByTagName "w:p" body).Sublist body.preorder ∧
    (∀ n, n ∈ docGetElementsByTagName "w:p" body ↔
        n ∈ body.preorder ∧ isTag "w:p" n = true) := by
  refine ⟨?_, ?_, ?_, ?_⟩
  · intro i h
    have hc : 0 ≤ (i : Int) ∧ (i : Int) < ((docGetElementsByTagName "w:p" body).length : Int) := by
      exact ⟨Int.natCast_nonneg i, by exact_mod_cast h⟩
    simp only [locateParagraph, if_pos hc, Int.toNat_natCast]
    exact List.getElem?_eq_getElem h
  · intro location hloc
    simp only [locateParagraph, if_neg hloc]
  · exact List.filter_sublist _
  · intro n
    simp [docGetElementsByTagName, List.mem_filter]

/-- Witness for C5: a two-paragraph body; index 1 resolves to the second
paragraph and index 2 (= count) is not found. -/
theorem findByTagAndIndex_fallback_witness :
    locateParagraph none
        (docGetElementsByTagName "w:p"
          (.elem "w:document" [] [.elem "w:body" [] [.elem "w:p" [] [], .elem "w:p" [] []]]))
        (1 : Int) = some (.elem "w:p" [] []) ∧
    locateParagraph none
        (docGetElementsByTagName "w:p"
          (.elem "w:document" [] [.elem "w:body" [] [.elem "w:p" [] [], .elem "w:p" [] []]]))
        (2 : Int) = none := by
  constructor
  · have h := (findByTagAndIndex_fallback
      (.elem "w:document" [] [.elem "w:body" [] [.elem "w:p" [] [], .elem "w:p" [] []]])).1
      1 (by decide)
    exact h.trans (by decide)
  · exact (findByTagAndIndex_fallback
      (.elem "w:document" [] [.elem "w:body" [] [.elem "w:p" [] [], .elem "w:p" [] []]])).2.1
      2 (by decide)

/-- `root.hasAttribute(name)` on a minidom element whose attribute list
is `attrs`. -/
def hasAttribute (attrs : List (String × String)) (name : String) : Bool :=
  attrs.any (fun p => p.1 = name)

/-- `root.setAttribute(name, v)`: replaces the value when the attribute
exists, appends it otherwise. -/
def setAttribute (attrs : List (String × String)) (name v : String) :
    List (String × String) :=
  if hasAttribute attrs name then attrs.map (fun p => if p.1 = name then (name, v) else p)
  else attrs ++ [(name, v)]

/-- `root.getAttribute`-style read: the value of the first attribute with
the given name, if any. -/
def getAttribute (attrs : List (String × String)) (name : String) : Option String :=
  match attrs.filter (fun p => p.1 = name) with
  | [] => none
  | p :: _ => some p.2

/-- The root-attribute mutation of `word_ops.enable_tracking`: generate
and set a `w:rsidRDefault` session identifier only when the root does
not already carry one.  `rsid` is the (randomly generated) identifier
the call would write. -/
def enable_tracking_root (attrs : List (String × String)) (rsid : String) :
    List (String × String) :=
  if hasAttribute attrs "w:rsidRDefault" then attrs
  else setAttribute attrs "w:rsidRDefault" rsid

/-- Number of attributes with the given name. -/
def countAttr (attrs : List (String × String)) (name : String) : Nat :=
  (attrs.filter (fun p => p.1 = name)).length

lemma hasAttribute_false_filter_nil {attrs : List (String × String)} {name : String}
    (h : hasAttribute attrs name = false) :
    attrs.filter (fun p => (p.1 = name : Bool)) = [] := by
  rw [List.filter_eq_nil_iff]
  intro p hp
  have := List.any_eq_false.mp h p hp
  simpa using this

lemma hasAttribute_true_count_pos {attrs : List (String × String)} {name : String}
    (h : hasAttribute attrs name = true) :
    1 ≤ countAttr attrs name := by
  obtain ⟨p, hp, hpn⟩ := List.any_eq_true.mp h
  have : p ∈ attrs.filter (fun q => (q.1 = name : Bool)) := List.mem_filter.mpr ⟨hp, hpn⟩
  have := List.length_pos_of_mem this
  simpa [countAttr] using this

/-- C4: `enable_tracking` is idempotent for the revision-session
identifier: starting from a root without duplicate `w:rsidRDefault`
attributes, two calls leave exactly one such attribute, the second call
changes nothing, and when the attribute was initially absent its value
is the one the first call wrote. -/
theorem enable_tracking_idempotent (attrs : List (String × String)) (r1 r2 : String)
    (h : countAttr attrs "w:rsidRDefault" ≤ 1) :
    countAttr (enable_tracking_root (enable_tracking_root attrs r1) r2) "w:rsidRDefault" = 1 ∧
    enable_tracking_root (enable_tracking_root attrs r1) r2 = enable_tracking_root attrs r1 ∧
    (hasAttribute attrs "w:rsidRDefault" = false →
      getAttribute (enable_tracking_root attrs r1) "w:rsidRDefault" = some r1) := by
  by_cases hb : hasAttribute attrs "w:rsidRDefault" = true
  · have h1 : enable_tracking_root attrs r1 = attrs := by
      simp [enable_tracking_root, hb]
    have h2 : enable_tracking_root attrs r2 = attrs := by
      simp [enable_tracking_root, hb]
    refine ⟨?_, ?_, ?_⟩
    · rw [h1, h2]
      exact le_antisymm h (hasAttribute_true_count_pos hb)
    · rw [h1, h2]
    · intro hf; rw [hf] at hb; cases hb
  · have hb' : hasAttribute attrs "w:rsidRDefault" = false := by
      cases hba : hasAttribute attrs "w:rsidRDefault"
      · rfl
      · exact absurd hba hb
    have hset : enable_tracking_root attrs r1 = attrs ++ [("w:rsidRDefault", r1)] := by
      simp [enable_tracking_root, setAttribute, hb']
    have hnil := hasAttribute_false_filter_nil hb'
    have hfil : (attrs ++ [("w:rsidRDefault", r1)]).filter
        (fun p => (p.1 = "w:rsidRDefault" : Bool)) = [("w:rsidRDefault", r1)] := by
      rw [List.filter_append, hnil]
      simp
    have hhas : hasAttribute (attrs ++ [("w:rsidRDefault", r1)]) "w:rsidRDefault" = true := by
      apply List.any_eq_true.mpr
      exact ⟨("w:rsidRDefault", r1), by simp, by simp⟩
    refine ⟨?_, ?_, ?_⟩
    · rw [hset]
      simp [enable_tracking_root, hhas, countAttr, hfil]
    · rw [hset]
      simp [enable_tracking_root, hhas]
    · intro _
      rw [hset]
      simp [getAttribute, hfil]

/-- Witness for C4: an attribute-free root, then two calls with distinct
generated identifiers. -/
theorem enable_tracking_idempotent_witness :
    countAttr (enable_tracking_root (enable_tracking_root [] "0A3F") "77B2")
        "w:rsidRDefault" = 1 ∧
    getAttribute (enable_tracking_root [] "0A3F") "w:rsidRDefault" = some "0A3F" := by
  have h := enable_tracking_idempotent [] "0A3F" "77B2" (by decide)
  exact ⟨h.1, h.2.2 (by decide)⟩

/-- The text value a `w:t` element contributes in
`word_cli.read_document`: `n.firstChild.nodeValue` when the element has
a first child and it is a text node (`if n.firstChild` only filters
childless elements; an element first child cannot occur below `w:t` in a
well-formed body). -/
def firstChildText : XNode → Option (List Char)
  | .elem _ _ (.text s :: _) => some s
  | _ => none

/-- The concatenated `w:t` text of one paragraph: `"".join(...)` over
`p.getElementsByTagName("w:t")`. -/
def paraText (p : XNode) : List Char :=
  ((getElementsByTagName "w:t" p).filterMap firstChildText).flatten

/-- Python `str.strip` whitespace class. -/
def isPySpace (c : Char) : Bool :=
  c = ' ' || c = '\t' || c = '\n' || c = '\r' || c = Char.ofNat 11 || c = Char.ofNat 12

/-- Python `str.strip()`: drop leading and trailing whitespace. -/
def pyStrip (s : List Char) : List Char :=
  ((s.dropWhile isPySpace).reverse.dropWhile isPySpace).reverse

/-- The `for i, p in enumerate(paragraphs)` loop of
`word_cli.read_document`, collecting an `(index, stripped text)` entry
for each paragraph whose stripped text is non-empty. -/
def entriesFrom (i : Nat) : List XNode → List (Nat × List Char)
  | [] => []
  | p :: ps =>
      let t := pyStrip (paraText p)
      (if t = [] then [] else [(i, t)]) ++ entriesFrom (i + 1) ps

/-- The `content` array `word_cli.read_document` reports for a body
part. -/
def paragraphEntries (root : XNode) : List (Nat × List Char) :=
  entriesFrom 0 (docGetElementsByTagName "w:p" root)

lemma entriesFrom_mem (ps : List XNode) : ∀ (i j : Nat) (t : List Char),
    (j, t) ∈ entriesFrom i ps ↔
      ∃ k : Nat, ∃ _ : k < ps.length,
        j = i + k ∧ t = pyStrip (paraText ps[k]) ∧ t ≠ [] := by
  induction ps with
  | nil =>
      intro i j t
      simp [entriesFrom]
  | cons p ps ih =>
      intro i j t
      by_cases ht : pyStrip (paraText p) = []
      · rw [show entriesFrom i (p :: ps) = entriesFrom (i + 1) ps by
            simp [entriesFrom, ht]]
        rw [ih (i + 1) j t]
        constructor
        · rintro ⟨k, hk, hj, htt, hne⟩
          exact ⟨k + 1, by simpa using hk, by omega, by simpa using htt, hne⟩
        · rintro ⟨k, hk, hj, htt, hne⟩
          match k with
          | 0 =>
              exfalso
              apply hne
              rw [htt]
              simpa using ht
          | k + 1 =>
              exact ⟨k, by simpa using hk, by omega, by simpa using htt, hne⟩
      · rw [show entriesFrom i (p :: ps) =
            (i, pyStrip (paraText p)) :: entriesFrom (i + 1) ps by
            simp [entriesFrom, ht]]
        rw [List.mem_cons, ih (i + 1) j t]
        constructor
        · rintro (heq | ⟨k, hk, hj, htt, hne⟩)
          · obtain ⟨hj, htv⟩ := Prod.mk.inj heq
            refine ⟨0, by simp, by omega, by simpa using htv, ?_⟩
            rw [htv]
            exact ht
          · exact ⟨k + 1, by simpa using hk, by omega, by simpa using htt, hne⟩
        · rintro ⟨k, hk, hj, htt, hne⟩
          match k with
          | 0 =>
              left
              rw [hj, htt]
              simp
          | k + 1 =>
              exact Or.inr ⟨k, by simpa using hk, by omega, by simpa using htt, hne⟩

lemma entriesFrom_fst_le (ps : List XNode) (i j : Nat) (t : List Char)
    (hm : (j, t) ∈ entriesFrom i ps) : i ≤ j := by
  obtain ⟨k, hk, hj, _⟩ := (entriesFrom_mem ps i j t).mp hm
  omega

lemma entriesFrom_pairwise (ps : List XNode) : ∀ i : Nat,
    List.Pairwise (fun a b => a.1 < b.1) (entriesFrom i ps) := by
  induction ps with
  | nil =>
      intro i
      simp [entriesFrom]
  | cons p ps ih =>
      intro i
      by_cases ht : pyStrip (paraText p) = []
      · simpa [entriesFrom, ht] using ih (i + 1)
      · rw [show entriesFrom i (p :: ps) =
            (i, pyStrip (paraText p)) :: entriesFrom (i + 1) ps by
            simp [entriesFrom, ht]]
        refine List.Pairwise.cons ?_ (ih (i + 1))
        intro b hb
        obtain ⟨j, t⟩ := b
        have := entriesFrom_fst_le ps (i + 1) j t hb
        show i < j
        omega

/-- C10: `word_cli.read_document` reports an entry exactly for those
paragraphs whose concatenated `w:t` text is non-empty after stripping:
the entry carries the paragraph's zero-based index among all `w:p`
elements in document order together with its stripped text;
whitespace-only paragraphs produce no entry, and the reported indices
are strictly increasing (document positions, possibly
non-contiguous). -/
theorem read_document_content (root : XNode) :
    (∀ (j : Nat) (t : List Char),
        (j, t) ∈ paragraphEntries root ↔
          ∃ _ : j < (docGetElementsByTagName "w:p" root).length,
            t = pyStrip (paraText (docGetElementsByTagName "w:p" root)[j]) ∧ t ≠ []) ∧
    List.Pairwise (fun a b => a.1 < b.1) (paragraphEntries root) := by
  constructor
  · intro j t
    rw [paragraphEntries, entriesFrom_mem]
    constructor
    · rintro ⟨k, hk, hj, htt, hne⟩
      have hkj : k = j := by omega
      subst hkj
      exact ⟨hk, htt, hne⟩
    · rintro ⟨h, htt, hne⟩
      exact ⟨j, h, by omega, htt, hne⟩
  · exact entriesFrom_pairwise _ 0

/-- Witness for C10: a body with one text paragraph and one
whitespace-only paragraph; the first is reported at index 0, the second
is omitted. -/
theorem read_document_content_witness :
    (0, "Hi".toList) ∈ paragraphEntries
        (.elem "w:document" []
          [.elem "w:body" []
            [.elem "w:p" [] [.elem "w:r" [] [.elem "w:t" [] [.text "Hi".toList]]],
             .elem "w:p" [] [.elem "w:r" [] [.elem "w:t" [] [.text " ".toList]]]]]) ∧
    ¬ ∃ t, (1, t) ∈ paragraphEntries
        (.elem "w:document" []
          [.elem "w:body" []
            [.elem "w:p" [] [.elem "w:r" [] [.elem "w:t" [] [.text "Hi".toList]]],
             .elem "w:p" [] [.elem "w:r" [] [.elem "w:t" [] [.text " ".toList]]]]]) := by
  constructor
  · exact ((read_document_content _).1 0 "Hi".toList).mpr ⟨by decide, by decide, by decide⟩
  · rintro ⟨t, hm⟩
    obtain ⟨h, htt, hne⟩ := ((read_document_content _).1 1 t).mp hm
    apply hne
    rw [htt]
    rfl

mutual

/-- Modelled from the spec: the deleted-text conversion step of
`document.py`'s `suggest_deletion` (file not in the sources) —
"converting visible text runs into deleted-text markup": visible `w:t`
runs become `w:delText` elements, everything else is kept. -/
def convertRuns : XNode → XNode
  | .text s => .text s
  | .elem t a cs => .elem (if t = "w:t" then "w:delText" else t) a (convertRunsList cs)

def convertRunsList : List XNode → List XNode
  | [] => []
  | c :: cs => convertRuns c :: convertRunsList cs

end

/-- Modelled from the spec: the deletion-tracking wrapper of
`document.py`'s `suggest_deletion` — a `w:del` element tagged with
author and a fresh revision identifier, holding the target's content
with text runs converted. -/
def delWrap (author rsid : String) (n : XNode) : XNode :=
  .elem "w:del" [("w:author", author), ("w:id", rsid)] [convertRuns n]

mutual

/-- Replace (outermost) occurrences of `target` in a tree by `repl`. -/
def replaceNode (target repl : XNode) : XNode → XNode
  | .text s => if XNode.text s = target then repl else .text s
  | .elem t a cs =>
      if XNode.elem t a cs = target then repl
      else .elem t a (replaceNodeList target repl cs)

def replaceNodeList (target repl : XNode) : List XNode → List XNode
  | [] => []
  | c :: cs => replaceNode target repl c :: replaceNodeList target repl cs

end

/-- Modelled from the spec: `document.py`'s `suggest_deletion(node)` at
the tree level — wraps the located node in a deletion-tracking element
in place rather than removing it. -/
def suggestDeletion (author rsid : String) (body target : XNode) : XNode :=
  replaceNode target (delWrap author rsid target) body

mutual

/-- Concatenated character data of a tree, in document order. -/
def textContent : XNode → List Char
  | .text s => s
  | .elem _ _ cs => textContentList cs

def textContentList : List XNode → List Char
  | [] => []
  | c :: cs => textContent c ++ textContentList cs

end

mutual

/-- Structural well-formedness of a serialized part: every element
carries a non-empty tag name. -/
def wellFormed : XNode → Bool
  | .text _ => true
  | .elem t _ cs => (t != "") && wellFormedList cs

def wellFormedList : List XNode → Bool
  | [] => true
  | c :: cs => wellFormed c && wellFormedList cs

end

lemma band_true_iff {a b : Bool} : (a && b) = true ↔ a = true ∧ b = true := by
  simp

mutual

theorem textContent_convertRuns : ∀ n : XNode, textContent (convertRuns n) = textContent n
  | .text _ => rfl
  | .elem t a cs => by
      simp only [convertRuns, textContent]
      exact textContentList_convertRunsList cs

theorem textContentList_convertRunsList :
    ∀ cs : List XNode, textContentList (convertRunsList cs) = textContentList cs
  | [] => rfl
  | c :: cs => by
      simp only [convertRunsList, textContentList]
      rw [textContent_convertRuns c, textContentList_convertRunsList cs]

end

lemma textContent_delWrap (author rsid : String) (n : XNode) :
    textContent (delWrap author rsid n) = textContent n := by
  simp only [delWrap, textContent, textContentList]
  rw [textContent_convertRuns n]
  simp

mutual

theorem textContent_replaceDel (a r : String) (target : XNode) :
    ∀ n : XNode,
      textContent (replaceNode target (delWrap a r target) n) = textContent n
  | .text s => by
      by_cases h : XNode.text s = target
      · rw [replaceNode, if_pos h, textContent_delWrap, h]
      · rw [replaceNode, if_neg h]
  | .elem t att cs => by
      by_cases h : XNode.elem t att cs = target
      · rw [replaceNode, if_pos h, textContent_delWrap, h]
      · rw [replaceNode, if_neg h]
        simp only [textContent]
        exact textContentList_replaceDel a r target cs

theorem textContentList_replaceDel (a r : String) (target : XNode) :
    ∀ cs : List XNode,
      textContentList (replaceNodeList target (delWrap a r target) cs) = textContentList cs
  | [] => rfl
  | c :: cs => by
      simp only [replaceNodeList, textContentList]
      rw [textContent_replaceDel a r target c, textContentList_replaceDel a r target cs]

end

lemma self_mem_preorder : ∀ n : XNode, n ∈ n.preorder
  | .text s => by simp [XNode.preorder]
  | .elem t a cs => by simp [XNode.preorder]

mutual

theorem mem_preorder_replaceDel (a r : String) (target : XNode) :
    ∀ n : XNode, target ∈ n.preorder →
      delWrap a r target ∈ (replaceNode target (delWrap a r target) n).preorder
  | .text s, h => by
      have hts : target = .text s := by simpa [XNode.preorder] using h
      rw [replaceNode, if_pos hts.symm]
      exact self_mem_preorder _
  | .elem t att cs, h => by
      by_cases he : XNode.elem t att cs = target
      · rw [replaceNode, if_pos he]
        exact self_mem_preorder _
      · rw [replaceNode, if_neg he]
        have hcs : target ∈ preorderList cs := by
          rcases (by simpa [XNode.preorder] using h :
              target = XNode.elem t att cs ∨ target ∈ preorderList cs) with h1 | h1
          · exact absurd h1.symm he
          · exact h1
        have := memList_preorder_replaceDel a r target cs hcs
        simp only [XNode.preorder, List.mem_cons]
        exact Or.inr this

theorem memList_preorder_replaceDel (a r : String) (target : XNode) :
    ∀ cs : List XNode, target ∈ preorderList cs →
      delWrap a r target ∈ preorderList (replaceNodeList target (delWrap a r target) cs)
  | c :: cs, h => by
      simp only [preorderList, List.mem_append] at h
      simp only [replaceNodeList, preorderList, List.mem_append]
      rcases h with h | h
      · exact Or.inl (mem_preorder_replaceDel a r target c h)
      · exact Or.inr (memList_preorder_replaceDel a r target cs h)

end

mutual

theorem wellFormed_of_mem_preorder :
    ∀ n : XNode, wellFormed n = true → ∀ m ∈ n.preorder, wellFormed m = true
  | .text s, _, m, hm => by
      have : m = .text s := by simpa [XNode.preorder] using hm
      rw [this]
      rfl
  | .elem t att cs, hwf, m, hm => by
      rcases (by simpa [XNode.preorder] using hm :
          m = XNode.elem t att cs ∨ m ∈ preorderList cs) with h1 | h1
      · rw [h1]; exact hwf
      · have hcs : wellFormedList cs = true := by
          have := hwf
          rw [wellFormed] at this
          exact (band_true_iff.mp this).2
        exact wellFormedList_of_mem_preorder cs hcs m h1

theorem wellFormedList_of_mem_preorder :
    ∀ cs : List XNode, wellFormedList cs = true → ∀ m ∈ preorderList cs, wellFormed m = true
  | c :: cs, hwf, m, hm => by
      have hc : wellFormed c = true ∧ wellFormedList cs = true := by
        rw [wellFormedList] at hwf
        exact band_true_iff.mp hwf
      rcases (by simpa [preorderList] using hm : m ∈ c.preorder ∨ m ∈ preorderList cs) with h1 | h1
      · exact wellFormed_of_mem_preorder c hc.1 m h1
      · exact wellFormedList_of_mem_preorder cs hc.2 m h1

end

mutual

theorem wellFormed_convertRuns :
    ∀ n : XNode, wellFormed n = true → wellFormed (convertRuns n) = true
  | .text _, _ => rfl
  | .elem t att cs, hwf => by
      have h := band_true_iff.mp (by rw [wellFormed] at hwf; exact hwf)
      rw [convertRuns, wellFormed]
      refine band_true_iff.mpr ⟨?_, wellFormedList_convertRuns cs h.2⟩
      by_cases ht : t = "w:t" <;> simp [ht] at h ⊢
      exact h.1

theorem wellFormedList_convertRuns :
    ∀ cs : List XNode, wellFormedList cs = true → wellFormedList (convertRunsList cs) = true
  | [], _ => rfl
  | c :: cs, hwf => by
      have h := band_true_iff.mp (by rw [wellFormedList] at hwf; exact hwf)
      rw [convertRunsList, wellFormedList]
      exact band_true_iff.mpr
        ⟨wellFormed_convertRuns c h.1, wellFormedList_convertRuns cs h.2⟩

end

lemma wellFormed_delWrap (a r : String) (n : XNode) (h : wellFormed n = true) :
    wellFormed (delWrap a r n) = true := by
  rw [delWrap, wellFormed, wellFormedList, wellFormedList]
  simp [wellFormed_convertRuns n h]

mutual

theorem wellFormed_replaceDel (a r : String) (target : XNode) (hw : wellFormed (delWrap a r target) = true) :
    ∀ n : XNode, wellFormed n = true →
      wellFormed (replaceNode target (delWrap a r target) n) = true
  | .text s, _ => by
      by_cases h : XNode.text s = target
      · rw [replaceNode, if_pos h]; exact hw
      · rw [replaceNode, if_neg h]; rfl
  | .elem t att cs, hwf => by
      by_cases h : XNode.elem t att cs = target
      · rw [replaceNode, if_pos h]; exact hw
      · rw [replaceNode, if_neg h]
        have hp := band_true_iff.mp (by rw [wellFormed] at hwf; exact hwf)
        rw [wellFormed]
        exact band_true_iff.mpr ⟨hp.1, wellFormedList_replaceDel a r target hw cs hp.2⟩

theorem wellFormedList_replaceDel (a r : String) (target : XNode) (hw : wellFormed (delWrap a r target) = true) :
    ∀ cs : List XNode, wellFormedList cs = true →
      wellFormedList (replaceNodeList target (delWrap a r target) cs) = true
  | [], _ => rfl
  | c :: cs, hwf => by
      have hp := band_true_iff.mp (by rw [wellFormedList] at hwf; exact hwf)
      rw [replaceNodeList, wellFormedList]
      exact band_true_iff.mpr
        ⟨wellFormed_replaceDel a r target hw c hp.1,
         wellFormedList_replaceDel a r target hw cs hp.2⟩

end

/-- C3: after `suggest_deletion` targets a node of the body part, the
node's wrapping deletion-tracking marker is present in the resulting
tree, no character data is lost (deletion never physically removes the
node's content), and the part is still structurally well-formed. -/
theorem suggestDeletion_never_removes (author rsid : String) (body target : XNode)
    (hmem : target ∈ body.preorder) (hwf : wellFormed body = true) :
    delWrap author rsid target ∈ (suggestDeletion author rsid body target).preorder ∧
    textContent (suggestDeletion author rsid body target) = textContent body ∧
    wellFormed (suggestDeletion author rsid body target) = true := by
  have hwt : wellFormed target = true := wellFormed_of_mem_preorder body hwf target hmem
  refine ⟨mem_preorder_replaceDel author rsid target body hmem, ?_, ?_⟩
  · exact textContent_replaceDel author rsid target body
  · exact wellFormed_replaceDel author rsid target (wellFormed_delWrap author rsid target hwt)
      body hwf

/-- Witness for C3: deleting the only paragraph of a one-paragraph
body. -/
theorem suggestDeletion_never_removes_witness :
    (XNode.elem "w:p" [] [.elem "w:r" [] [.elem "w:t" [] [.text "x".toList]]]) ∈
        (XNode.elem "w:document" []
          [.elem "w:body" []
            [.elem "w:p" [] [.elem "w:r" [] [.elem "w:t" [] [.text "x".toList]]]]]).preorder ∧
    textContent
        (suggestDeletion "Reviewer" "00AF"
          (.elem "w:document" []
            [.elem "w:body" []
              [.elem "w:p" [] [.elem "w:r" [] [.elem "w:t" [] [.text "x".toList]]]]])
          (.elem "w:p" [] [.elem "w:r" [] [.elem "w:t" [] [.text "x".toList]]])) =
      textContent
        (.elem "w:document" []
          [.elem "w:body" []
            [.elem "w:p" [] [.elem "w:r" [] [.elem "w:t" [] [.text "x".toList]]]]]) := by
  refine ⟨by decide, ?_⟩
  exact (suggestDeletion_never_removes "Reviewer" "00AF"
    (.elem "w:document" []
      [.elem "w:body" []
        [.elem "w:p" [] [.elem "w:r" [] [.elem "w:t" [] [.text "x".toList]]]]])
    (.elem "w:p" [] [.elem "w:r" [] [.elem "w:t" [] [.text "x".toList]]])
    (by decide) (by decide)).2.1

/-- A JSON value of the shapes these scripts emit: scalars, arrays of
strings (`errors`, `warnings`), and arrays of index/text entries
(`content`). -/
inductive JVal where
  | jbool (b : Bool)
  | jstr (s : String)
  | jint (n : Int)
  | jstrs (xs : List String)
  | jentries (xs : List (Nat × String))
deriving DecidableEq

/-- Dictionary lookup on a JSON object (ordered key/value pairs). -/
def jGet (o : List (String × JVal)) (k : String) : Option JVal :=
  match o.filter (fun p => p.1 = k) with
  | [] => none
  | p :: _ => some p.2

/-- Key membership on a JSON object. -/
def jHasKey (o : List (String × JVal)) (k : String) : Bool :=
  o.any (fun p => p.1 = k)

/-- An unpacked document directory: the part paths present, each with a
flag telling whether its content parses as well-formed XML. -/
structure UnpackedDir where
  files : List (String × Bool)
deriving DecidableEq

/-- Whether a part exists in the unpacked directory. -/
def present (d : UnpackedDir) (f : String) : Bool :=
  d.files.any (fun p => p.1 = f)

/-- Whether a part exists and parses as well-formed XML. -/
def parses (d : UnpackedDir) (f : String) : Bool :=
  d.files.any (fun p => p.1 = f && p.2)

/-- The `required_files` list of `word_cli.validate_document`. -/
def requiredFiles : List String := ["word/document.xml", "[Content_Types].xml"]

/-- Python `", ".join`. -/
def joinComma : List String → String
  | [] => ""
  | [x] => x
  | x :: xs => x ++ ", " ++ joinComma xs

/-- `word_cli.validate_document` (non-raising path): collect the
required files that do not exist; report failure when any is missing and
success otherwise.  The source checks only file existence — parse status
is never consulted — and the failing result carries no `warnings`
field. -/
def validate_document_cli (d : UnpackedDir) : List (String × JVal) :=
  if requiredFiles.filter (fun f => !(present d f)) ≠ [] then
    [("success", .jbool false), ("valid", .jbool false),
     ("errors", .jstrs ["Missing required files: " ++
        joinComma (requiredFiles.filter (fun f => !(present d f)))])]
  else
    [("success", .jbool true), ("valid", .jbool true),
     ("errors", .jstrs []), ("warnings", .jstrs [])]

/-- A Validation Result (spec §3): pass/fail with ordered error and
warning messages. -/
structure ValidationResult where
  valid : Bool
  errors : List String
  warnings : List String
deriving DecidableEq

/-- Modelled from the spec: `DOCXSchemaValidator.validate`
(`ooxml/scripts/validation/docx.py`, not among the sources) — checks
presence of the mandatory parts and that each required part parses as
well-formed XML (spec §4.5), collecting one error per violation. -/
def schemaValidate (d : UnpackedDir) : ValidationResult :=
  { valid := (requiredFiles.filterMap
        (fun f => if present d f then none else some ("Missing required part: " ++ f)) ++
      requiredFiles.filterMap
        (fun f => if present d f && !(parses d f) then some ("Malformed XML: " ++ f)
                  else none)).isEmpty,
    errors := requiredFiles.filterMap
        (fun f => if present d f then none else some ("Missing required part: " ++ f)) ++
      requiredFiles.filterMap
        (fun f => if present d f && !(parses d f) then some ("Malformed XML: " ++ f)
                  else none),
    warnings := [] }

/-- `word_ops.validate_document`: run the schema validator and report
`success`, `valid`, `errors` and `warnings` on every outcome. -/
def validate_document_ops (d : UnpackedDir) : List (String × JVal) :=
  [("success", .jbool (schemaValidate d).valid),
   ("valid", .jbool (schemaValidate d).valid),
   ("errors", .jstrs (schemaValidate d).errors),
   ("warnings", .jstrs (schemaValidate d).warnings)]

lemma isEmpty_false_of_ne_nil {α : Type} {l : List α} (h : l ≠ []) : l.isEmpty = false := by
  cases l with
  | nil => exact absurd rfl h
  | cons a l => rfl

/-- Counterexample to C6: a directory whose `word/document.xml` exists
but does not parse as XML is nevertheless reported `valid: true` with no
errors by `word_cli.validate_document`. -/
theorem validate_cli_ignores_malformed_xml :
    present (UnpackedDir.mk [("word/document.xml", false), ("[Content_Types].xml", true)])
        "word/document.xml" = true ∧
    parses (UnpackedDir.mk [("word/document.xml", false), ("[Content_Types].xml", true)])
        "word/document.xml" = false ∧
    jGet (validate_document_cli
        (UnpackedDir.mk [("word/document.xml", false), ("[Content_Types].xml", true)]))
      "valid" = some (.jbool true) ∧
    jGet (validate_document_cli
        (UnpackedDir.mk [("word/document.xml", false), ("[Content_Types].xml", true)]))
      "errors" = some (.jstrs []) :=
  ⟨rfl, rfl, rfl, rfl⟩

/-- C6 (amended): `word_cli.validate_document` checks only the presence
of the mandatory parts, returning `valid = false` with a non-empty
error list whenever one is missing; the well-formedness check lives in
the schema validator invoked by `word_ops.validate_document`
(spec-modelled), which reports `valid = false` with a non-empty error
list whenever a mandatory part is missing or a required part fails to
parse. -/
theorem validate_presence_and_wellformedness :
    (∀ d : UnpackedDir, (∃ f ∈ requiredFiles, present d f = false) →
        jGet (validate_document_cli d) "valid" = some (.jbool false) ∧
        ∃ es, jGet (validate_document_cli d) "errors" = some (.jstrs es) ∧ es ≠ []) ∧
    (∀ d : UnpackedDir, (∃ f ∈ requiredFiles, present d f = false ∨ parses d f = false) →
        (schemaValidate d).valid = false ∧ (schemaValidate d).errors ≠ []) := by
  constructor
  · rintro d ⟨f, hf, hp⟩
    have hmem : f ∈ requiredFiles.filter (fun g => !(present d g)) :=
      List.mem_filter.mpr ⟨hf, by simp [hp]⟩
    have hne : requiredFiles.filter (fun g => !(present d g)) ≠ [] :=
      List.ne_nil_of_mem hmem
    unfold validate_document_cli
    rw [if_pos hne]
    exact ⟨rfl, _, rfl, by simp⟩
  · rintro d ⟨f, hf, hcase⟩
    have hmem : ∃ e, e ∈ (schemaValidate d).errors := by
      rcases hcase with hp | hparse
      · refine ⟨"Missing required part: " ++ f, ?_⟩
        apply List.mem_append.mpr
        exact Or.inl (List.mem_filterMap.mpr ⟨f, hf, by simp [hp]⟩)
      · by_cases hp2 : present d f = true
        · refine ⟨"Malformed XML: " ++ f, ?_⟩
          apply List.mem_append.mpr
          exact Or.inr (List.mem_filterMap.mpr ⟨f, hf, by simp [hp2, hparse]⟩)
        · refine ⟨"Missing required part: " ++ f, ?_⟩
          apply List.mem_append.mpr
          exact Or.inl (List.mem_filterMap.mpr ⟨f, hf, by simp [hp2]⟩)
    obtain ⟨e, he⟩ := hmem
    have hne : (schemaValidate d).errors ≠ [] := List.ne_nil_of_mem he
    exact ⟨isEmpty_false_of_ne_nil hne, hne⟩

/-- Witness for C6 (amended): an empty unpacked directory is invalid
under both validators. -/
theorem validate_presence_and_wellformedness_witness :
    jGet (validate_document_cli (UnpackedDir.mk [])) "valid" = some (.jbool false) ∧
    (schemaValidate (UnpackedDir.mk [])).valid = false := by
  constructor
  · exact (validate_presence_and_wellformedness.1 (UnpackedDir.mk [])
      ⟨"word/document.xml", by simp [requiredFiles], rfl⟩).1
  · exact (validate_presence_and_wellformedness.2 (UnpackedDir.mk [])
      ⟨"word/document.xml", by simp [requiredFiles], Or.inl rfl⟩).1

/-- Counterexample to C7: on the missing-file outcome,
`word_cli.validate_document` returns an object with no `warnings`
field at all. -/
theorem validate_cli_omits_warnings :
    jHasKey (validate_document_cli (UnpackedDir.mk [])) "warnings" = false ∧
    jGet (validate_document_cli (UnpackedDir.mk [])) "valid" = some (.jbool false) :=
  ⟨rfl, rfl⟩

/-- C7 (amended): `word_ops.validate_document` returns `valid`,
`errors` and `warnings` on every outcome; `word_cli.validate_document`
returns `valid` and `errors` on every outcome but includes `warnings`
only on the all-parts-present outcome. -/
theorem validation_results_fields :
    (∀ d : UnpackedDir,
        jHasKey (validate_document_ops d) "valid" = true ∧
        jHasKey (validate_document_ops d) "errors" = true ∧
        jHasKey (validate_document_ops d) "warnings" = true) ∧
    (∀ d : UnpackedDir,
        jHasKey (validate_document_cli d) "valid" = true ∧
        jHasKey (validate_document_cli d) "errors" = true) ∧
    (∀ d : UnpackedDir, requiredFiles.filter (fun f => !(present d f)) = [] →
        jHasKey (validate_document_cli d) "warnings" = true) := by
  refine ⟨fun d => ⟨rfl, rfl, rfl⟩, fun d => ?_, fun d h => ?_⟩
  · by_cases hmiss : requiredFiles.filter (fun f => !(present d f)) = []
    · unfold validate_document_cli
      rw [if_neg (by simp [hmiss])]
      exact ⟨rfl, rfl⟩
    · unfold validate_document_cli
      rw [if_pos hmiss]
      exact ⟨rfl, rfl⟩
  · unfold validate_document_cli
    rw [if_neg (by simp [h])]
    rfl

/-- Witness for C7 (amended): a complete directory gets all three
fields from the CLI validator. -/
theorem validation_results_fields_witness :
    jHasKey (validate_document_cli
        (UnpackedDir.mk [("word/document.xml", true), ("[Content_Types].xml", true)]))
      "warnings" = true := by
  exact validation_results_fields.2.2
    (UnpackedDir.mk [("word/document.xml", true), ("[Content_Types].xml", true)]) rfl

/-- Python truthiness on the modelled JSON values. -/
def pyTruthy : JVal → Bool
  | .jbool b => b
  | .jstr s => s ≠ ""
  | .jint n => n ≠ 0
  | .jstrs xs => xs ≠ []
  | .jentries xs => xs ≠ []

/-- The exit logic of `word_ops.main`: `sys.exit(1)` when a result was
produced, is truthy (a non-empty dict) and `result.get("success",
True)` is falsy; otherwise the process ends with exit code 0. -/
def word_ops_exit (result : List (String × JVal)) : Nat :=
  if !result.isEmpty && !(pyTruthy ((jGet result "success").getD (.jbool true))) then 1 else 0

/-- Python `str(e)` for the error taxonomy. -/
def errMessage : DocxError → String
  | .archiveCorrupt => "ArchiveCorrupt"
  | .missingContentTypes => "MissingContentTypes"
  | .partNotFound => "PartNotFound"
  | .malformedXml => "MalformedXml"
  | .invalidRange => "InvalidRange"
  | .locationNotFound => "LocationNotFound"
  | .ioFailure => "IoFailure"

/-- `word_cli.read_document`: the whole body runs under `try/except`,
so any failure opening or parsing the part becomes a structured
`success: False` result with the exception text; on success the
non-empty paragraph entries are reported. -/
def read_document (openResult : Except DocxError XNode) : List (String × JVal) :=
  match openResult with
  | .error e => [("success", .jbool false), ("error", .jstr (errMessage e))]
  | .ok root =>
      [("success", .jbool true),
       ("content", .jentries ((paragraphEntries root).map (fun en => (en.1, String.mk en.2))))]

/-- The two subcommands of `word_cli.py`. -/
inductive CliCommand where
  | read
  | validate
deriving DecidableEq

/-- `word_cli.main`: dispatch the subcommand and print its JSON —
the function never calls `sys.exit`, so the process exit code is 0 on
every result. -/
def word_cli_main (cmd : CliCommand) (openResult : Except DocxError XNode)
    (d : UnpackedDir) : List (String × JVal) × Nat :=
  match cmd with
  | .read => (read_document openResult, 0)
  | .validate => (validate_document_cli d, 0)

/-- Counterexample to C8: a `word_cli` invocation whose result has
`success = false` still exits with code 0. -/
theorem word_cli_exit_zero_on_failure :
    jGet (word_cli_main .read (.error .partNotFound) (UnpackedDir.mk [])).1 "success" =
      some (.jbool false) ∧
    (word_cli_main .read (.error .partNotFound) (UnpackedDir.mk [])).2 = 0 :=
  ⟨rfl, rfl⟩

/-- C8 (amended): the `word_ops.py` CLI exits non-zero exactly when the
produced result's `success` field is false, while the `word_cli.py` CLI
exits 0 on every invocation, its result's `success` value
notwithstanding. -/
theorem exit_code_matches_success :
    (∀ (o : List (String × JVal)) (s : Bool),
        jGet o "success" = some (.jbool s) → (word_ops_exit o ≠ 0 ↔ s = false)) ∧
    (∀ (cmd : CliCommand) (openResult : Except DocxError XNode) (d : UnpackedDir),
        (word_cli_main cmd openResult d).2 = 0) := by
  constructor
  · intro o s h
    cases o with
    | nil => simp [jGet] at h
    | cons p o' =>
        unfold word_ops_exit
        rw [h]
        cases s <;> simp [pyTruthy]
  · intro cmd openResult d
    cases cmd <;> rfl

/-- Witness for C8 (amended): a failed result makes the `word_ops` CLI
exit non-zero. -/
theorem exit_code_matches_success_witness :
    word_ops_exit [("success", .jbool false)] ≠ 0 := by
  exact (exit_code_matches_success.1 [("success", .jbool false)] false rfl).mpr rfl

/-- `word_ops.add_comment` as a whole CLI-facing call: the function
body has no `try/except`, so a failure raised while unpacking
(`ArchiveCorrupt` for an unreadable archive, spec §4.1) propagates to
the caller uncaught instead of becoming a structured result. -/
def run_add_comment {A : Type} (unpackResult : Except DocxError DocState)
    (original packedResult : A) (location : Int) (text author : String) :
    Except DocxError (Outcome A) :=
  match unpackResult with
  | .error e => .error e
  | .ok st => .ok (add_comment original packedResult st location text author)

/-- Counterexample to C2: an `ArchiveCorrupt` failure during unpack
escapes `word_ops.add_comment` as an uncaught exception — the caller
receives no structured `success = false` result. -/
theorem word_ops_unpack_error_escapes :
    run_add_comment (A := Nat) (.error .archiveCorrupt) 0 1 0 "t" "a" =
      .error .archiveCorrupt :=
  rfl

/-- C2 (amended): the `word_cli.py` operations catch every failure and
report it as a structured `success = false` result with an error
string; the `word_ops.py` editing operations, having no exception
handler, let any error raised during unpack or parse propagate
uncaught. -/
theorem structured_error_reporting :
    (∀ e : DocxError,
        jGet (read_document (.error e)) "success" = some (.jbool false) ∧
        ∃ s, jGet (read_document (.error e)) "error" = some (.jstr s)) ∧
    (∀ (e : DocxError) (location : Int) (text author : String),
        run_add_comment (A := Nat) (.error e) 0 1 location text author = .error e) := by
  constructor
  · intro e
    exact ⟨rfl, errMessage e, rfl⟩
  · intro e location text author
    rfl

/-- A created comment range: the document-order positions of its start
and end anchors. -/
structure CommentRange where
  startPos : Nat
  endPos : Nat
  text : String
  author : String
deriving DecidableEq

/-- Modelled from the spec: the anchor check of `document.py`'s
`add_comment(start, end, text)` (file not among the sources) — fails
with `InvalidRange` when the end node does not follow the start node in
document order (strictly precedes it); otherwise creates a
comment-definition entry whose range markers bracket `[start, end]`.
`pos` gives each node's document-order position. -/
def docAddComment (pos : XNode → Nat) (start end_ : XNode) (text author : String) :
    Except DocxError CommentRange :=
  if pos end_ < pos start then .error .invalidRange
  else .ok ⟨pos start, pos end_, text, author⟩

/-- C9: `word_ops.add_comment` always hands the located paragraph as
both the start and the end of the comment range, so the `InvalidRange`
failure is unreachable through this interface and every created range
brackets exactly one paragraph. -/
theorem add_comment_single_paragraph_range {A : Type} (original packedResult : A)
    (st : DocState) (location : Int) (text author : String) (node : XNode)
    (h : locateParagraph st.lineHit st.paragraphs location = some node) :
    (add_comment original packedResult st location text author).edits =
      [.comment node node text author] ∧
    ∀ pos : XNode → Nat,
      docAddComment pos node node text author =
        .ok ⟨pos node, pos node, text, author⟩ := by
  constructor
  · simp [add_comment, h]
  · intro pos
    simp [docAddComment]

/-- Witness for C9: a line-based hit on a concrete paragraph yields the
single-paragraph comment edit. -/
theorem add_comment_single_paragraph_range_witness :
    (add_comment (0 : Nat) 1
        (DocState.mk (.elem "w:document" [] []) (some (.elem "w:p" [] []))) 0 "c" "a").edits =
      [.comment (.elem "w:p" [] []) (.elem "w:p" [] []) "c" "a"] := by
  exact (add_comment_single_paragraph_range 0 1
    (DocState.mk (.elem "w:document" [] []) (some (.elem "w:p" [] []))) 0 "c" "a"
    (.elem "w:p" [] []) rfl).1

end TheScrew
